import Mathlib

/-!
Verification of the causal intervention search core of the repository:
the symbolic state manager (`state_manager.py`), the intervention applier
(`interventions.py`), the reward shaper (`reward_shaper.py`) and the MCTS
engine (`mcts.py`), embedded shallowly.  Python floats are embedded as
rationals (the arithmetic in scope is plain +, -, *, /, abs and
comparisons); Python dicts of object positions are embedded as functions
`String -> Option Vec3`; Python sets as `Finset`; mutation is embedded as
explicit state passing.  The pseudo-random choice in rollouts is an
explicit oracle `Nat -> Nat` consumed one draw at a time.
-/

namespace ActivePlan

/-- Splitting a character list on a nonempty separator pattern, left to
right, non-overlapping — the semantics of Python `str.split(sep)`.  The
fuel argument (instantiated with the list length) only makes the recursion
structural; each step consumes at least one character. -/
def splitOnListAux (sep : List Char) : ℕ → List Char → List Char → List (List Char)
  | _, acc, [] => [acc.reverse]
  | 0, acc, l => [acc.reverse ++ l]
  | fuel + 1, acc, c :: cs =>
      if sep.isPrefixOf (c :: cs) then
        acc.reverse :: splitOnListAux sep fuel [] ((c :: cs).drop sep.length)
      else
        splitOnListAux sep fuel (c :: acc) cs

/-- Python `str.split(sep)` (kernel-reducible version of `String.splitOn`). -/
def strSplitOn (s sep : String) : List String :=
  if sep.data = [] then [s]
  else (splitOnListAux sep.data s.data.length [] s.data).map (fun l => String.mk l)

/-- Substring test, mirroring the Python `in` operator on strings; every
use site passes a nonempty pattern. -/
def strContains (s pat : String) : Bool :=
  (strSplitOn s pat).length != 1

/-- Python `str.startswith` (kernel-reducible `String.startsWith`). -/
def strStartsWith (s pat : String) : Bool :=
  pat.data.isPrefixOf s.data

/-- Dropping the first `n` characters (Python slice `s[n:]`). -/
def strDrop (s : String) (n : ℕ) : String :=
  String.mk (s.data.drop n)

/-- Dropping the last `n` characters (Python slice `s[:-n]`). -/
def strDropRight (s : String) (n : ℕ) : String :=
  String.mk (s.data.take (s.data.length - n))

/-- Python `str.strip()` (kernel-reducible `String.trim`). -/
def strTrim (s : String) : String :=
  String.mk (((s.data.dropWhile Char.isWhitespace).reverse.dropWhile
    Char.isWhitespace).reverse)

/-- Position vector (x, y, z), embedding the 3-element position lists. -/
abbrev Vec3 := ℚ × ℚ × ℚ

/-- An intervention: an (object, action-descriptor) pair. -/
abbrev Intv := String × String

/-- The initial-state record consumed by the core: object positions and the
declared relationship list (a set once loaded). -/
structure InitState where
  objects : String → Option Vec3
  relationships : Finset String

/-- Embedding of `StateManager`: object positions, the declared relationship
set, the alignment threshold and the intervened-object set.
(`compute_displacement`, which takes a real square root, is outside the
claims in scope and is not embedded.) -/
structure StateManager where
  objects : String → Option Vec3
  initial_objects : String → Option Vec3
  relationships : Finset String
  alignment_threshold : ℚ
  intervened_objects : Finset String

/-- `StateManager.__init__`: deep copies of the initial objects (copies are
implicit in the functional embedding), the declared relationship set, the
given threshold, and an empty intervened-object set. -/
def StateManager.init (initial_state : InitState) (alignment_threshold : ℚ) :
    StateManager :=
  { objects := initial_state.objects
    initial_objects := initial_state.objects
    relationships := initial_state.relationships
    alignment_threshold := alignment_threshold
    intervened_objects := ∅ }

/-- `StateManager.apply_shift`: move a known object by `magnitude` along the
axis given by `direction`; unknown objects and unknown directions fail with
no mutation. -/
def StateManager.apply_shift (s : StateManager) (obj direction : String)
    (magnitude : ℚ) : Bool × StateManager :=
  match s.objects obj with
  | none => (false, s)
  | some pos =>
    let dv : Option Vec3 :=
      if direction = "left" then some (-magnitude, 0, 0)
      else if direction = "right" then some (magnitude, 0, 0)
      else if direction = "forward" then some (0, magnitude, 0)
      else if direction = "back" then some (0, -magnitude, 0)
      else none
    match dv with
    | none => (false, s)
    | some d =>
      (true,
        { s with
          objects := fun o =>
            if o = obj then some (pos.1 + d.1, pos.2.1 + d.2.1, pos.2.2 + d.2.2)
            else s.objects o
          intervened_objects := insert obj s.intervened_objects })

/-- `StateManager.check_alignment`: both objects exist and their x and y
coordinates differ by less than the threshold. -/
def StateManager.check_alignment (s : StateManager) (obj_a obj_b : String) : Bool :=
  match s.objects obj_a, s.objects obj_b with
  | some pa, some pb =>
      decide (|pa.1 - pb.1| < s.alignment_threshold) &&
      decide (|pa.2.1 - pb.2.1| < s.alignment_threshold)
  | _, _ => false

/-- `StateManager.check_misalignment`: negation of `check_alignment`. -/
def StateManager.check_misalignment (s : StateManager) (obj reference : String) : Bool :=
  ! s.check_alignment obj reference

/-- `StateManager._check_relationship_holds`: non-`On(` predicates hold
unconditionally; an `On(` body that does not split into exactly two fields
holds unconditionally; an `On(A,B)` with a missing object holds
unconditionally; otherwise the x-y alignment test decides. -/
def StateManager.check_relationship_holds (s : StateManager) (rel : String) : Bool :=
  if ! strStartsWith rel ("On(") then true
  else
    match strSplitOn (strDropRight (strDrop rel 3) 1) (",") with
    | [pa, pb] =>
      let obj_a := strTrim pa
      let obj_b := strTrim pb
      if (s.objects obj_a).isNone || (s.objects obj_b).isNone then true
      else s.check_alignment obj_a obj_b
    | _ => true

/-- `StateManager.get_relationships`: the subset of the declared set whose
geometric precondition currently holds. -/
def StateManager.get_relationships (s : StateManager) : Finset String :=
  s.relationships.filter (fun rel => s.check_relationship_holds rel)

/-- `StateManager.get_position`. -/
def StateManager.get_position (s : StateManager) (obj : String) : Option Vec3 :=
  s.objects obj

/-- `StateManager.get_alignment_score`. -/
def StateManager.get_alignment_score (s : StateManager)
    (goal_relationships : Finset String) : ℚ :=
  if goal_relationships = ∅ then 1
  else ((s.get_relationships ∩ goal_relationships).card : ℚ) /
    (goal_relationships.card : ℚ)

/-- Read-only snapshot returned by `get_state_snapshot`. -/
structure Snapshot where
  objects : String → Option Vec3
  relationships : Finset String
  intervened_objects : Finset String

/-- `StateManager.get_state_snapshot`: a pure view, no mutation. -/
def StateManager.get_state_snapshot (s : StateManager) : Snapshot :=
  { objects := s.objects
    relationships := s.get_relationships
    intervened_objects := s.intervened_objects }

/-- `StateManager.reset_to_initial`: restore the construction-time object
positions and clear the intervened set; the relationship set is untouched. -/
def StateManager.reset_to_initial (s : StateManager) : StateManager :=
  { s with objects := s.initial_objects, intervened_objects := ∅ }

/-- Value of a digit string. -/
def digitStrVal (l : List Char) : ℕ :=
  l.foldl (fun acc c => acc * 10 + (c.toNat - 48)) 0

/-- Models Python `float()` on plain decimal literals (optional sign, digit
string, optional fractional part) — the only shapes action magnitudes take
in scope; anything else fails like `float()` raising `ValueError`. -/
def parseFloatQ (s : String) : Option ℚ :=
  let core : String → Option ℚ := fun body =>
    match strSplitOn body (".") with
    | [ip] =>
        if (ip.data.length != 0) && ip.data.all Char.isDigit then
          some ((digitStrVal ip.data : ℚ))
        else none
    | [ip, fp] =>
        if ((ip.data.length != 0) || (fp.data.length != 0)) &&
            ip.data.all Char.isDigit && fp.data.all Char.isDigit then
          some ((digitStrVal ip.data : ℚ) +
            (digitStrVal fp.data : ℚ) / (10 : ℚ) ^ fp.data.length)
        else none
    | _ => none
  if strStartsWith s ("-") then (core (strDrop s 1)).map Neg.neg
  else if strStartsWith s ("+") then core (strDrop s 1)
  else core s

/-- The four recognized shift direction tokens. -/
def shiftTokens : List String := ["left", "right", "forward", "back"]

/-- `InterventionApplier.parse_action`: split on a comma into exactly two
fields, parse the magnitude, validate the direction token. -/
def parse_action (action : String) : Option (String × ℚ) :=
  match strSplitOn action (",") with
  | [p0, p1] =>
    let direction := strTrim p0
    match parseFloatQ (strTrim p1) with
    | none => none
    | some magnitude =>
      if direction = "left" || direction = "right" ||
          direction = "forward" || direction = "back" then
        some (direction, magnitude)
      else none
  | _ => none

/-- `InterventionApplier._apply_shift`: parse, then shift via the state
manager; parse failure and unknown objects yield `(false, 0)`. -/
def apply_shift_action (shift_reward : ℚ) (s : StateManager)
    (obj action : String) : (Bool × ℚ) × StateManager :=
  match parse_action action with
  | none => ((false, 0), s)
  | some dm =>
    let res := s.apply_shift obj dm.1 dm.2
    if res.1 then ((true, shift_reward), res.2) else ((false, 0), res.2)

/-- `InterventionApplier._apply_swap`: a stub — it only prints
"Swap not yet implemented" (a side effect, not part of the returned value)
and returns `(false, 0)` with no mutation. -/
def apply_swap (s : StateManager) (_action : String) : (Bool × ℚ) × StateManager :=
  ((false, 0), s)

/-- `InterventionApplier._apply_pick_place`: a stub — it only prints
"Pick/place not yet implemented" and returns `(false, 0)` with no
mutation. -/
def apply_pick_place (s : StateManager) (_obj _action : String) :
    (Bool × ℚ) × StateManager :=
  ((false, 0), s)

/-- `InterventionApplier.apply`: dispatch in source order — shift-shaped
descriptors first, then the swap sentinel, then pick/place, then the
unknown-kind fallback (which also only prints and returns `(false, 0)`).
The applier object's `state_manager` field is threaded explicitly; its
`shift_reward` field is the first argument. -/
def InterventionApplier.apply (shift_reward : ℚ) (s : StateManager)
    (obj action : String) : (Bool × ℚ) × StateManager :=
  if strContains action (",") && shiftTokens.any (fun d => strContains action d) then
    apply_shift_action shift_reward s obj action
  else if obj = "Swap" && strContains action (",") then
    apply_swap s action
  else if strContains action ("pick") || strContains action ("place") then
    apply_pick_place s obj action
  else
    ((false, 0), s)

/-- Embedding of `RewardShaper`. -/
structure RewardShaper where
  goal : Finset String
  shift_bonus : ℚ
  depth_penalty : ℚ

/-- `RewardShaper.step_reward`: the shift bonus whenever the action string
contains a direction token; the relationship arguments are accepted but
unused by the current policy. -/
def RewardShaper.step_reward (rs : RewardShaper) (_prev_rels _curr_rels : Finset String)
    (action : String) : ℚ :=
  if shiftTokens.any (fun d => strContains action d) then rs.shift_bonus else 0

/-- `RewardShaper.final_reward`: achieved fraction of the goal minus the
depth penalty times the intervention count; no clamping. -/
def RewardShaper.final_reward (rs : RewardShaper) (final_rels : Finset String)
    (interventions : List Intv) : ℚ :=
  (if rs.goal.card = 0 then 1
   else ((final_rels ∩ rs.goal).card : ℚ) / (rs.goal.card : ℚ)) -
    rs.depth_penalty * (interventions.length : ℚ)

/-- Embedding of `MCTSNode`, as a purely functional tree: the `parent` back
reference of the source is represented by paths (lists of child indices)
from the root, and `children` are owned subtrees. -/
inductive MTree where
  | node (interventions : List Intv) (children : List MTree) (visits : ℕ)
      (total_reward : ℚ) (untried_actions : Option (List Intv))
      (local_violations : Finset Intv)

/-- `interventions` field. -/
def MTree.interventions : MTree → List Intv
  | .node i _ _ _ _ _ => i

/-- `children` field. -/
def MTree.children : MTree → List MTree
  | .node _ c _ _ _ _ => c

/-- `visits` field. -/
def MTree.visits : MTree → ℕ
  | .node _ _ v _ _ _ => v

/-- `total_reward` field. -/
def MTree.total_reward : MTree → ℚ
  | .node _ _ _ r _ _ => r

/-- `untried_actions` field (`none` embeds Python `None`). -/
def MTree.untried_actions : MTree → Option (List Intv)
  | .node _ _ _ _ u _ => u

/-- `local_violations` field. -/
def MTree.local_violations : MTree → Finset Intv
  | .node _ _ _ _ _ lv => lv

/-- Field update: children. -/
def MTree.withChildren : MTree → List MTree → MTree
  | .node i _ v r u lv, c => .node i c v r u lv

/-- Field update: visits. -/
def MTree.withVisits : MTree → ℕ → MTree
  | .node i c _ r u lv, v => .node i c v r u lv

/-- Field update: total reward. -/
def MTree.withReward : MTree → ℚ → MTree
  | .node i c v _ u lv, r => .node i c v r u lv

/-- Field update: untried actions. -/
def MTree.withUntried : MTree → Option (List Intv) → MTree
  | .node i c v r _ lv, u => .node i c v r u lv

/-- Field update: local violations. -/
def MTree.withViolations : MTree → Finset Intv → MTree
  | .node i c v r u _, lv => .node i c v r u lv

/-- A fresh node, as built by the `MCTSNode` constructor. -/
def newNode (interventions : List Intv) : MTree :=
  .node interventions [] 0 0 none ∅

/-- Default tree used as the (never reached) fallback of list indexing. -/
def defaultMTree : MTree := newNode []

instance : Inhabited MTree := ⟨defaultMTree⟩

/-- Engine configuration: the `CausalMCTS` constructor arguments.  The
`scenario` dictionary of the source is represented by the one field the
claims consult, a scenario-level alignment threshold, which the engine
stores but never reads.  `explore_fn` abstracts the exploration kernel
`sqrt(ln parent_visits / child_visits)` of `_best_child`: its (irrational)
numerical value enters no claim in scope — only that it is finite, in
contrast to the infinite score of an unvisited child — so it is carried as
an arbitrary rational-valued function. -/
structure MCTSConfig where
  initial_state : InitState
  goal_state : Finset String
  scenario_alignment_threshold : ℚ
  reward_shaper : RewardShaper
  intervention_space : List (String × List String)
  max_rollout_depth : ℕ
  termination_threshold : ℚ
  exploration_constant : ℚ
  explore_fn : ℕ → ℕ → ℚ

/-- `CausalMCTS.get_legal_actions`: every (object, action) pair of the
intervention space, excluding pairs in the node's violation set and pairs
whose object (other than the "Swap" sentinel) already occurs in the given
intervention sequence. -/
def get_legal_actions (cfg : MCTSConfig) (interventions : List Intv)
    (violations : Finset Intv) : List Intv :=
  cfg.intervention_space.flatMap (fun p =>
    p.2.filterMap (fun action =>
      let candidate : Intv := (p.1, action)
      if candidate ∈ violations then none
      else if p.1 ∈ interventions.map Prod.fst ∧ p.1 ≠ "Swap" then none
      else some candidate))

/-- A UCT score: the finite scores of visited children and the infinite
score produced by the `else` branch of `_best_child` for unvisited ones,
mirroring IEEE `inf` comparison and absorption. -/
inductive ScoreVal where
  | fin (q : ℚ)
  | inf

/-- `score > best_score` of `_best_child`, where `none` is the initial
`-inf`: everything beats `-inf`, a finite score beats a smaller finite
score, `inf` beats any finite score, and `inf > inf` is false. -/
def scoreGT : ScoreVal → Option ScoreVal → Bool
  | _, none => true
  | .fin q, some (.fin p) => decide (p < q)
  | .inf, some (.fin _) => true
  | .fin _, some .inf => false
  | .inf, some .inf => false

/-- The UCT score of one child in `_best_child`: exploitation plus
exploration (infinite when the child — or the parent — is unvisited;
adding the finite exploitation term to an infinite exploration term is
absorbed, as for floats). -/
def childScore (cfg : MCTSConfig) (parent_visits : ℕ) (c : MTree) : ScoreVal :=
  let exploit : ℚ := if 0 < c.visits then c.total_reward / (c.visits : ℚ) else 0
  if 0 < c.visits ∧ 0 < parent_visits then
    .fin (exploit + cfg.exploration_constant * cfg.explore_fn parent_visits c.visits)
  else .inf

/-- The `_best_child` loop over the children, tracking the index of the
current best child and its score (`none` is the initial `-inf`). -/
def bestChildGo (cfg : MCTSConfig) (parent_visits : ℕ) :
    ℕ → ℕ × Option ScoreVal → List MTree → ℕ × Option ScoreVal
  | _, best, [] => best
  | i, best, c :: cs =>
    bestChildGo cfg parent_visits (i + 1)
      (if scoreGT (childScore cfg parent_visits c) best.2 then
        (i, some (childScore cfg parent_visits c))
      else best) cs

/-- Index of the child selected by `_best_child` (the first child attaining
the maximal score, by the strict `>` update of the source loop). -/
def bestChildIdx (cfg : MCTSConfig) (t : MTree) : ℕ :=
  (bestChildGo cfg t.visits 0 (0, none) t.children).1

/-- `CausalMCTS._best_child` itself: the selected child (`none` when there
are no children, as the source loop then returns its initial `None`). -/
def best_child (cfg : MCTSConfig) (t : MTree) : Option MTree :=
  t.children.get? (bestChildIdx cfg t)

/-- Initializing a node's untried-action list when it is still `None` —
the step `node.untried_actions = self.get_legal_actions(...)` shared by
`select` and `expand`. -/
def initUntried (cfg : MCTSConfig) (c : MTree) : MTree :=
  if c.untried_actions.isNone then
    c.withUntried (some (get_legal_actions cfg c.interventions c.local_violations))
  else c

/-- Python truthiness of `node.untried_actions`: `None` and `[]` are falsy. -/
def untriedTruthy (t : MTree) : Bool :=
  match t.untried_actions with
  | some (_ :: _) => true
  | _ => false

/-- `CausalMCTS.select`, returning the updated tree (descending initializes
`untried_actions` of the entered child when unset) and the path to the
selected node.  The fuel argument only makes the recursion structural; the
engine passes `iterations + 2`, which exceeds every reachable tree depth
(each iteration adds at most one node). -/
def selectGo (cfg : MCTSConfig) : ℕ → MTree → MTree × List ℕ
  | 0, t => (t, [])
  | fuel + 1, t =>
    if untriedTruthy t then (t, [])
    else if t.children.isEmpty then (t, [])
    else
      let j := bestChildIdx cfg t
      let sub := selectGo cfg fuel (initUntried cfg (t.children.getD j defaultMTree))
      (t.withChildren (t.children.set j sub.1), j :: sub.2)

/-- `CausalMCTS.expand` acting on one node: initialize the untried-action
list if unset, then pop the first untried action and attach the new child;
the Boolean reports whether a child was created. -/
def expandNode (cfg : MCTSConfig) (t : MTree) : MTree × Bool :=
  let t1 := initUntried cfg t
  match t1.untried_actions with
  | some (a :: rest) =>
    ((t1.withUntried (some rest)).withChildren
      (t1.children ++ [newNode (t1.interventions ++ [a])]), true)
  | _ => (t1, false)

/-- `expand` applied at a path: returns the updated tree and the path to
the produced child (the path to the node itself when nothing could be
expanded, matching `expand` returning its input node). -/
def expandAt (cfg : MCTSConfig) : MTree → List ℕ → MTree × List ℕ
  | t, [] =>
    let r := expandNode cfg t
    (r.1, if r.2 then [r.1.children.length - 1] else [])
  | t, j :: p =>
    let r := expandAt cfg (t.children.getD j defaultMTree) p
    (t.withChildren (t.children.set j r.1), j :: r.2)

/-- The node at a path (the tree itself for an out-of-range step; paths
produced by `selectGo`/`expandAt` are always in range). -/
def getAt : MTree → List ℕ → MTree
  | t, [] => t
  | t, j :: p => getAt (t.children.getD j defaultMTree) p

/-- `CausalMCTS.backpropagate` along a path: every node from the rolled-out
node up to the root gains one visit and the reward, and each node's (already
merged) violation set is merged into its parent's. -/
def backpropAt (reward : ℚ) : MTree → List ℕ → MTree
  | t, [] => (t.withVisits (t.visits + 1)).withReward (t.total_reward + reward)
  | t, j :: p =>
    let c' := backpropAt reward (t.children.getD j defaultMTree) p
    ((((t.withVisits (t.visits + 1)).withReward (t.total_reward + reward)).withChildren
        (t.children.set j c')).withViolations (t.local_violations ∪ c'.local_violations))

/-- The state manager built afresh at the start of every rollout: the
source hard-codes the 5 mm alignment threshold (`alignment_threshold=0.005`)
irrespective of any configured threshold. -/
def rolloutStateManager (cfg : MCTSConfig) : StateManager :=
  StateManager.init cfg.initial_state (5/1000)

/-- The immediate shift reward of the applier built in every rollout: the
source hard-codes `shift_reward=0.0`. -/
def rolloutShiftReward : ℚ := 0

/-- The alignment ("misalignment") bonus of `rollout`: 0.25 for each of the
objects 1..4 currently aligned with the reference object 0.  The source has
a debug branch (at most one intervention) and a normal branch; both compute
this same value — the debug branch guards on both positions existing before
the alignment test, but `check_alignment` is false exactly when a position
is missing, so the guard is redundant and the branches agree. -/
def alignmentBonus (s : StateManager) : ℚ :=
  ["1", "2", "3", "4"].foldl
    (fun acc obj => if s.check_misalignment obj ("0") then acc else acc + 1/4) 0

/-- Result of one rollout: the reward, the recorded history entry
(`interventions` of the appended `reward_history` record), and the advanced
oracle position. -/
structure RolloutOut where
  reward : ℚ
  recorded : List Intv
  pos : ℕ

/-- The random-suffix loop of `rollout`: up to `budget` additional legal
actions chosen by the oracle, accumulating step rewards, then the terminal
reward over the final relationship set and the whole history. -/
def rolloutSuffix (cfg : MCTSConfig) (oracle : ℕ → ℕ) (violations : Finset Intv) :
    ℕ → StateManager → Finset String → ℚ → List Intv → ℕ → RolloutOut
  | 0, s, _prev, acc, history, pos =>
    ⟨acc + cfg.reward_shaper.final_reward s.get_relationships history, history, pos⟩
  | budget + 1, s, prev, acc, history, pos =>
    match get_legal_actions cfg history violations with
    | [] => ⟨acc + cfg.reward_shaper.final_reward s.get_relationships history, history, pos⟩
    | v0 :: vs =>
      let a := (v0 :: vs).getD (oracle pos % (v0 :: vs).length) v0
      let res := InterventionApplier.apply rolloutShiftReward s a.1 a.2
      let curr := res.2.get_relationships
      rolloutSuffix cfg oracle violations budget res.2 curr
        (acc + cfg.reward_shaper.step_reward prev curr a.2 + res.1.2)
        (history ++ [a]) (pos + 1)

/-- `CausalMCTS.rollout`: build a fresh state manager and applier (with the
hard-coded threshold and shift reward), replay the node's intervention
sequence accumulating step rewards, add the terminal reward of the replayed
part and the alignment bonus; return immediately when the termination
threshold is already met (recording the node's interventions), otherwise
run the random suffix. -/
def rollout (cfg : MCTSConfig) (oracle : ℕ → ℕ) (pos : ℕ)
    (node_interventions : List Intv) (node_violations : Finset Intv) : RolloutOut :=
  let s0 := rolloutStateManager cfg
  let after := node_interventions.foldl
    (fun st a =>
      let res := InterventionApplier.apply rolloutShiftReward st.1 a.1 a.2
      let curr := res.2.get_relationships
      (res.2, curr, st.2.2 + cfg.reward_shaper.step_reward st.2.1 curr a.2 + res.1.2))
    (s0, cfg.initial_state.relationships, (0 : ℚ))
  let shaped := after.2.2 +
    cfg.reward_shaper.final_reward after.1.get_relationships node_interventions +
    alignmentBonus after.1
  if cfg.termination_threshold ≤ shaped then
    ⟨shaped, node_interventions, pos⟩
  else
    rolloutSuffix cfg oracle node_violations
      (cfg.max_rollout_depth - node_interventions.length)
      after.1 after.2.1 shaped node_interventions pos

/-- The mutable engine state of one `search_resolution` run: the tree, the
`reward_history` log, the `solution_found` flag and the oracle position. -/
structure SearchState where
  tree : MTree
  hist : List (List Intv × ℚ)
  found : Bool
  pos : ℕ

/-- Outcome of one loop iteration: skipped (expansion returned the bare
root), aborted through the `solution_found` check (dead within a single
run, since the flag is set only on return paths), or rolled out with the
child's interventions, the backpropagation path and the reward. -/
inductive StepOut where
  | skip (st : SearchState)
  | abort (ans : List Intv) (st : SearchState)
  | rolled (childInterventions : List Intv) (childPath : List ℕ) (reward : ℚ)
      (st : SearchState)

/-- One iteration of the `search_resolution` loop body: select, expand,
then either skip (`child.interventions == []`), abort on `solution_found`,
or roll out and backpropagate. -/
def mctsStep (cfg : MCTSConfig) (oracle : ℕ → ℕ) (fuel : ℕ) (st : SearchState) :
    StepOut :=
  let sel := selectGo cfg fuel st.tree
  let exp := expandAt cfg sel.1 sel.2
  let child := getAt exp.1 exp.2
  if child.interventions = [] then
    .skip { st with tree := exp.1 }
  else if st.found then
    .abort
      (match st.hist.getLast? with
       | some e => e.1
       | none => child.interventions)
      { st with tree := exp.1 }
  else
    let ro := rollout cfg oracle st.pos child.interventions child.local_violations
    .rolled child.interventions exp.2 ro.reward
      { tree := backpropAt ro.reward exp.1 exp.2
        hist := st.hist ++ [(ro.recorded, ro.reward)]
        found := if cfg.termination_threshold ≤ ro.reward then true else st.found
        pos := ro.pos }

/-- The state after one iteration, whatever the outcome. -/
def stepState (cfg : MCTSConfig) (oracle : ℕ → ℕ) (fuel : ℕ) (st : SearchState) :
    SearchState :=
  match mctsStep cfg oracle fuel st with
  | .skip st' => st'
  | .abort _ st' => st'
  | .rolled _ _ _ st' => st'

/-- Average reward of a root child in the final `max` (zero visits score
`0.0`). -/
def nodeAvg (c : MTree) : ℚ :=
  if c.visits = 0 then 0 else c.total_reward / (c.visits : ℚ)

/-- Python `max(children, key=avg)`: the first child attaining the maximal
average (the accumulator is replaced only on strict increase). -/
def bestAvgChild : MTree → List MTree → MTree
  | best, [] => best
  | best, c :: cs => bestAvgChild (if nodeAvg best < nodeAvg c then c else best) cs

/-- The budget-exhausted return of `search_resolution`: the best root child
by average reward, or the empty sequence when the root has no children;
either way with the full iteration count. -/
def finalAnswer (st : SearchState) (iterations : ℕ) : List Intv × ℕ :=
  match st.tree.children with
  | [] => ([], iterations)
  | c :: cs => ((bestAvgChild c cs).interventions, iterations)

/-- The iteration loop of `search_resolution`, running with `rem` remaining
iterations out of `total` (so the current index is `total - rem`). -/
def searchGo (cfg : MCTSConfig) (oracle : ℕ → ℕ) (fuel total : ℕ) :
    ℕ → SearchState → List Intv × ℕ
  | 0, st => finalAnswer st total
  | rem + 1, st =>
    match mctsStep cfg oracle fuel st with
    | .skip st' => searchGo cfg oracle fuel total rem st'
    | .abort ans _ => (ans, total - (rem + 1))
    | .rolled intvs _ r st' =>
      if cfg.termination_threshold ≤ r then (intvs, total - (rem + 1))
      else searchGo cfg oracle fuel total rem st'

/-- The engine state at entry of the loop: a fresh root whose untried
actions are initialized to all legal actions, empty history, the
`solution_found` flag false, oracle at position zero. -/
def initialSearchState (cfg : MCTSConfig) : SearchState :=
  { tree := (newNode []).withUntried (some (get_legal_actions cfg [] ∅))
    hist := [], found := false, pos := 0 }

/-- `CausalMCTS.search_resolution`. -/
def searchResolution (cfg : MCTSConfig) (oracle : ℕ → ℕ) (iterations : ℕ) :
    List Intv × ℕ :=
  searchGo cfg oracle (iterations + 2) iterations iterations (initialSearchState cfg)

/-- Specification-side recursion extracting the first early-success event
of the loop: the (relative) index of the first iteration whose rollout
reward meets the termination threshold, with that rollout's node
interventions and reward; `none` when the budget runs out (or the run
aborts) without one. -/
def firstSuccessFrom (cfg : MCTSConfig) (oracle : ℕ → ℕ) (fuel : ℕ) :
    ℕ → SearchState → Option (ℕ × List Intv × ℚ)
  | 0, _ => none
  | rem + 1, st =>
    match mctsStep cfg oracle fuel st with
    | .skip st' =>
      (firstSuccessFrom cfg oracle fuel rem st').map (fun x => (x.1 + 1, x.2))
    | .abort _ _ => none
    | .rolled intvs _ r st' =>
      if cfg.termination_threshold ≤ r then some (0, intvs, r)
      else (firstSuccessFrom cfg oracle fuel rem st').map (fun x => (x.1 + 1, x.2))

/-- The engine state before iteration `n` (iterating the loop body from the
initial state). -/
def iterState (cfg : MCTSConfig) (oracle : ℕ → ℕ) (fuel : ℕ) (n : ℕ) : SearchState :=
  (stepState cfg oracle fuel)^[n] (initialSearchState cfg)

/-- Whether the iteration run from `st` rolls out with a reward meeting the
termination threshold. -/
def stepSuccess (cfg : MCTSConfig) (oracle : ℕ → ℕ) (fuel : ℕ) (st : SearchState) :
    Bool :=
  match mctsStep cfg oracle fuel st with
  | .rolled _ _ r _ => decide (cfg.termination_threshold ≤ r)
  | _ => false

/-- Whether the iteration run from `st` performs a rollout at all (is not
skipped or aborted). -/
def stepRolled (cfg : MCTSConfig) (oracle : ℕ → ℕ) (fuel : ℕ) (st : SearchState) :
    Bool :=
  match mctsStep cfg oracle fuel st with
  | .rolled _ _ _ _ => true
  | _ => false

/-- Number of completed (non-skipped) iterations among the first `n`. -/
def completedIn (cfg : MCTSConfig) (oracle : ℕ → ℕ) (fuel : ℕ) (n : ℕ) : ℕ :=
  ((List.range n).filter
    (fun j => stepRolled cfg oracle fuel (iterState cfg oracle fuel j))).length

/-- The root-child index an iteration backpropagates into, when it rolls
out (the head of the backpropagation path). -/
def rolledRootChild (cfg : MCTSConfig) (oracle : ℕ → ℕ) (fuel : ℕ)
    (st : SearchState) : Option ℕ :=
  match mctsStep cfg oracle fuel st with
  | .rolled _ (j :: _) _ _ => some j
  | _ => none

/-- Number of distinct root children selected into during the first `n`
iterations. -/
def distinctSelected (cfg : MCTSConfig) (oracle : ℕ → ℕ) (fuel : ℕ) (n : ℕ) : ℕ :=
  (((List.range n).filterMap
    (fun j => rolledRootChild cfg oracle fuel (iterState cfg oracle fuel j))).dedup).length

/-- The reward of the rollout an iteration performs, if any. -/
def stepReward (cfg : MCTSConfig) (oracle : ℕ → ℕ) (fuel : ℕ) (st : SearchState) :
    Option ℚ :=
  match mctsStep cfg oracle fuel st with
  | .rolled _ _ r _ => some r
  | _ => none

/-- The interventions of the rollout an iteration performs, if any. -/
def stepInterventions (cfg : MCTSConfig) (oracle : ℕ → ℕ) (fuel : ℕ)
    (st : SearchState) : Option (List Intv) :=
  match mctsStep cfg oracle fuel st with
  | .rolled intvs _ _ _ => some intvs
  | _ => none

/-- The initial state of the section-8 end-to-end scenario: objects
`{0: [0,0,0], 1: [0.02,0,0]}` and the declared relationship `On(1,0)`. -/
def istScenario : InitState :=
  { objects := fun s =>
      if s = "0" then some (0, 0, 0)
      else if s = "1" then some (1/50, 0, 0)
      else none
    relationships := {"On(1,0)"} }

/-- The section-8 scenario configuration: goal `On(1,0)`, intervention
space `{"1": ["left,0.01", "right,0.01"]}`, termination threshold `0.9`,
depth penalty `0.05`; the scenario's alignment threshold `0.05` is carried
in its field (the engine ignores it); the shift bonus is the documented
default `0.25` and the rollout depth is 1 (both unspecified by the
scenario sentence). -/
def cfgScenario : MCTSConfig :=
  { initial_state := istScenario
    goal_state := {"On(1,0)"}
    scenario_alignment_threshold := 1/20
    reward_shaper := { goal := {"On(1,0)"}, shift_bonus := 1/4, depth_penalty := 1/20 }
    intervention_space := [("1", ["left,0.01", "right,0.01"])]
    max_rollout_depth := 1
    termination_threshold := 9/10
    exploration_constant := 0
    explore_fn := fun _ _ => 0 }

/-- A variant of the scenario whose single action `left,0.02` moves object
1 exactly onto the reference, so the first rollout succeeds immediately. -/
def cfgSolvable : MCTSConfig :=
  { cfgScenario with intervention_space := [("1", ["left,0.02"])] }

/-- A fixed rollout oracle (its draws are never consulted in the concrete
runs below, whose legal-action lists empty out after one step). -/
def oracleZero : ℕ → ℕ := fun _ => 0

/-- A concrete state manager over the scenario initial state. -/
def smScenario : StateManager := StateManager.init istScenario (5/1000)

/-- A parent node with zero visits, one visited child and one unvisited
child — the shape on which the literal reading of the unvisited-first
claim fails, since a zero-visit parent makes every child's exploration
term infinite. -/
def nodeMixedZero : MTree :=
  .node [] [.node [("a", "x")] [] 1 7 none ∅, .node [("a", "y")] [] 0 0 none ∅]
    0 5 (some []) ∅

/-- The same parent with one visit: the shape the amended unvisited-first
statement covers. -/
def nodeMixedOne : MTree :=
  .node [] [.node [("a", "x")] [] 1 7 none ∅, .node [("a", "y")] [] 0 0 none ∅]
    1 5 (some []) ∅

/-- C3: `apply_shift` on a known object changes only the x-coordinate by
`-m` for `left` and `+m` for `right`, only the y-coordinate by `+m` for
`forward` and `-m` for `back`, leaves z and every other object unchanged
and returns true; an unknown object or an unrecognized direction returns
false with the state (positions and intervened set) unchanged. -/
theorem apply_shift_spec (s : StateManager) (obj direction : String) (m x y z : ℚ) :
    (s.objects obj = some (x, y, z) →
      ((s.apply_shift obj ("left") m).1 = true ∧
        ((s.apply_shift obj ("left") m).2).objects obj = some (x - m, y, z)) ∧
      ((s.apply_shift obj ("right") m).1 = true ∧
        ((s.apply_shift obj ("right") m).2).objects obj = some (x + m, y, z)) ∧
      ((s.apply_shift obj ("forward") m).1 = true ∧
        ((s.apply_shift obj ("forward") m).2).objects obj = some (x, y + m, z)) ∧
      ((s.apply_shift obj ("back") m).1 = true ∧
        ((s.apply_shift obj ("back") m).2).objects obj = some (x, y - m, z)) ∧
      (∀ d o, o ≠ obj → ((s.apply_shift obj d m).2).objects o = s.objects o)) ∧
    (s.objects obj = none → s.apply_shift obj direction m = (false, s)) ∧
    (direction ≠ "left" → direction ≠ "right" → direction ≠ "forward" →
      direction ≠ "back" → s.apply_shift obj direction m = (false, s)) := by
  refine ⟨fun hobj => ?_, fun hnone => ?_, fun h1 h2 h3 h4 => ?_⟩
  · refine ⟨?_, ?_, ?_, ?_, ?_⟩
    · simp [StateManager.apply_shift, hobj, sub_eq_add_neg]
    · simp [StateManager.apply_shift, hobj]
    · simp [StateManager.apply_shift, hobj]
    · simp [StateManager.apply_shift, hobj, sub_eq_add_neg]
    · intro d o ho
      simp only [StateManager.apply_shift, hobj]
      split_ifs <;> simp [ho]
  · simp only [StateManager.apply_shift, hnone]
  · simp only [StateManager.apply_shift]
    cases hval : s.objects obj with
    | none => rfl
    | some pos => simp [h1, h2, h3, h4]

/-- Witness for C3 at a concrete input: object 1 of the scenario state,
shifted left by 0.01. -/
theorem apply_shift_spec_witness :
    smScenario.objects ("1") = some (1/50, 0, 0) ∧
    ((smScenario.apply_shift ("1") ("left") (1/100)).1 = true ∧
      ((smScenario.apply_shift ("1") ("left") (1/100)).2).objects ("1") =
        some (1/50 - 1/100, 0, 0)) :=
  ⟨by with_unfolding_all decide,
   ((apply_shift_spec smScenario ("1") ("up") (1/100) (1/50) 0 0).1
      (by with_unfolding_all decide)).1⟩

/-- Characterization of `check_relationship_holds` through the fields it
reads (shared helper). -/
theorem check_rel_congr (s s2 : StateManager) (ho : s.objects = s2.objects)
    (ht : s.alignment_threshold = s2.alignment_threshold) :
    s.check_relationship_holds = s2.check_relationship_holds := by
  funext r
  simp only [StateManager.check_relationship_holds, StateManager.check_alignment, ho, ht]

/-- C4: membership in `get_relationships` — the result is a subset of the
declared set; a non-`On(` predicate, an `On` body that does not split into
exactly two fields, and an `On` naming a missing object are all included
unconditionally; an `On(U,L)` with both objects present is included iff
both coordinate differences are below the threshold; and the result is a
pure function of the positions, the declared set and the threshold. -/
theorem get_relationships_spec (s : StateManager) (r : String) :
    (s.get_relationships ⊆ s.relationships) ∧
    (r ∈ s.relationships → strStartsWith r ("On(") = false →
      r ∈ s.get_relationships) ∧
    (r ∈ s.relationships →
      (strSplitOn (strDropRight (strDrop r 3) 1) (",")).length ≠ 2 →
      r ∈ s.get_relationships) ∧
    (∀ pa pb, r ∈ s.relationships →
      strSplitOn (strDropRight (strDrop r 3) 1) (",") = [pa, pb] →
      ((s.objects (strTrim pa)).isNone ∨ (s.objects (strTrim pb)).isNone) →
      r ∈ s.get_relationships) ∧
    (∀ pa pb pxa pxb, r ∈ s.relationships → strStartsWith r ("On(") = true →
      strSplitOn (strDropRight (strDrop r 3) 1) (",") = [pa, pb] →
      s.objects (strTrim pa) = some pxa → s.objects (strTrim pb) = some pxb →
      (r ∈ s.get_relationships ↔
        |pxa.1 - pxb.1| < s.alignment_threshold ∧
        |pxa.2.1 - pxb.2.1| < s.alignment_threshold)) ∧
    (∀ s2 : StateManager, s.objects = s2.objects →
      s.relationships = s2.relationships →
      s.alignment_threshold = s2.alignment_threshold →
      s.get_relationships = s2.get_relationships) := by
  refine ⟨Finset.filter_subset _ _, ?_, ?_, ?_, ?_, ?_⟩
  · intro hr hpre
    simp only [StateManager.get_relationships, Finset.mem_filter]
    exact ⟨hr, by simp [StateManager.check_relationship_holds, hpre]⟩
  · intro hr hlen
    simp only [StateManager.get_relationships, Finset.mem_filter]
    refine ⟨hr, ?_⟩
    simp only [StateManager.check_relationship_holds]
    split
    · rfl
    · split
      · next heq => simp [heq] at hlen
      · rfl
  · intro pa pb hr hsplit hmiss
    simp only [StateManager.get_relationships, Finset.mem_filter]
    refine ⟨hr, ?_⟩
    simp only [StateManager.check_relationship_holds, hsplit]
    split
    · rfl
    · have : ((s.objects (strTrim pa)).isNone || (s.objects (strTrim pb)).isNone) = true := by
        rcases hmiss with h | h <;> simp [h]
      simp [this]
  · intro pa pb pxa pxb hr hpre hsplit hpa hpb
    simp only [StateManager.get_relationships, Finset.mem_filter]
    simp only [StateManager.check_relationship_holds, hpre, hsplit, Bool.not_true,
      Bool.false_eq_true, if_false, hpa, hpb, Option.isNone_some, Bool.or_self,
      StateManager.check_alignment]
    simp [hr]
  · intro s2 ho hrel ht
    unfold StateManager.get_relationships
    rw [hrel, check_rel_congr s s2 ho ht]

/-- Witness for C4 at a concrete input: `On(1,0)` over the scenario state
with objects at distance 0.02 and threshold 0.005. -/
theorem get_relationships_spec_witness :
    ("On(1,0)" ∈ smScenario.relationships ∧
      strStartsWith ("On(1,0)") ("On(") = true ∧
      strSplitOn (strDropRight (strDrop ("On(1,0)") 3) 1) (",") = ["1", "0"] ∧
      smScenario.objects (strTrim ("1")) = some (1/50, 0, 0) ∧
      smScenario.objects (strTrim ("0")) = some (0, 0, 0)) ∧
    ("On(1,0)" ∈ smScenario.get_relationships ↔
      |(1/50 : ℚ) - 0| < smScenario.alignment_threshold ∧
      |(0 : ℚ) - 0| < smScenario.alignment_threshold) :=
  ⟨⟨by with_unfolding_all decide, by with_unfolding_all decide,
    by with_unfolding_all decide, by with_unfolding_all decide,
    by with_unfolding_all decide⟩,
   (get_relationships_spec smScenario ("On(1,0)")).2.2.2.2.1 ("1") ("0")
     (1/50, 0, 0) (0, 0, 0)
     (by with_unfolding_all decide) (by with_unfolding_all decide)
     (by with_unfolding_all decide) (by with_unfolding_all decide)
     (by with_unfolding_all decide)⟩

/-- C5: `final_reward` equals the achieved fraction (1 for an empty goal)
minus `depth_penalty` times the intervention count, with no clamping; the
difference between two results over the same relationships has slope
exactly `-depth_penalty` in the length, and for positive penalty the
reward strictly decreases as the sequence lengthens. -/
theorem final_reward_spec (rs : RewardShaper) (rels : Finset String)
    (l l1 l2 : List Intv) :
    (rs.final_reward rels l =
      (if rs.goal = ∅ then 1 else ((rels ∩ rs.goal).card : ℚ) / (rs.goal.card : ℚ)) -
        rs.depth_penalty * (l.length : ℚ)) ∧
    (rs.final_reward rels l1 - rs.final_reward rels l2 =
      -rs.depth_penalty * ((l1.length : ℚ) - (l2.length : ℚ))) ∧
    (0 < rs.depth_penalty → l1.length < l2.length →
      rs.final_reward rels l2 < rs.final_reward rels l1) := by
  refine ⟨?_, ?_, ?_⟩
  · simp [RewardShaper.final_reward, Finset.card_eq_zero]
  · simp only [RewardShaper.final_reward]
    ring
  · intro hdp hlen
    have hc : (l1.length : ℚ) < (l2.length : ℚ) := by exact_mod_cast hlen
    have := mul_lt_mul_of_pos_left hc hdp
    simp only [RewardShaper.final_reward]
    linarith

/-- Witness for C5 at a concrete input: goal of one predicate, penalty
0.05, sequences of lengths 0 and 1. -/
theorem final_reward_spec_witness :
    ((0 : ℚ) < 1/20 ∧ ([] : List Intv).length < [(("1" : String), ("left,0.01" : String))].length) ∧
    (RewardShaper.final_reward ⟨{"On(1,0)"}, 1/4, 1/20⟩ ∅
        [(("1" : String), ("left,0.01" : String))] <
      RewardShaper.final_reward ⟨{"On(1,0)"}, 1/4, 1/20⟩ ∅ []) :=
  ⟨⟨by norm_num, by decide⟩,
   (final_reward_spec ⟨{"On(1,0)"}, 1/4, 1/20⟩ ∅ []
       [] [(("1" : String), ("left,0.01" : String))]).2.2
     (by norm_num) (by decide)⟩

/-- C6 counterexample: a swap descriptor and a pick descriptor return the
very same value `(false, 0)` as a malformed shift descriptor — the three
results are equal, so no returned value distinguishes
UnsupportedActionKind from ParseFailure (only printed log text differs). -/
theorem applier_results_counterexample :
    InterventionApplier.apply 0 smScenario ("Swap") ("1,2") = ((false, 0), smScenario) ∧
    InterventionApplier.apply 0 smScenario ("1") ("pick-top") = ((false, 0), smScenario) ∧
    InterventionApplier.apply 0 smScenario ("1") ("left,abc") = ((false, 0), smScenario) ∧
    InterventionApplier.apply 0 smScenario ("Swap") ("1,2") =
      InterventionApplier.apply 0 smScenario ("1") ("left,abc") := by
  refine ⟨?_, ?_, ?_, ?_⟩ <;> with_unfolding_all rfl

/-- C6 amended: the swap stub, the pick/place stub and a shift parse
failure all return the value `(false, 0)` — indistinguishable by the
returned value, distinct only in printed log text — and none of them
mutates the state. -/
theorem applier_stub_spec (shift_reward : ℚ) (s : StateManager) (obj action : String) :
    (obj = "Swap" → strContains action (",") = true →
      shiftTokens.any (fun d => strContains action d) = false →
      InterventionApplier.apply shift_reward s obj action = ((false, 0), s)) ∧
    ((strContains action (",") && shiftTokens.any (fun d => strContains action d)) = false →
      ¬(obj = "Swap" ∧ strContains action (",") = true) →
      (strContains action ("pick") || strContains action ("place")) = true →
      InterventionApplier.apply shift_reward s obj action = ((false, 0), s)) ∧
    (strContains action (",") = true →
      shiftTokens.any (fun d => strContains action d) = true →
      parse_action action = none →
      InterventionApplier.apply shift_reward s obj action = ((false, 0), s)) := by
  refine ⟨fun hobj hc hd => ?_, fun hs hsw hp => ?_, fun hc hd hparse => ?_⟩
  · simp [InterventionApplier.apply, hobj, hc, hd, apply_swap]
  · have hsw' : ¬(obj = "Swap" ∧ strContains action (",") = true ∧ True) := by
      intro h
      exact hsw ⟨h.1, h.2.1⟩
    simp only [InterventionApplier.apply, hs, Bool.false_eq_true, if_false]
    rw [if_neg (by
      intro h
      exact hsw ⟨by
        rcases Bool.and_eq_true _ _ |>.mp h with ⟨h1, h2⟩
        exact of_decide_eq_true h1, by
        rcases Bool.and_eq_true _ _ |>.mp h with ⟨h1, h2⟩
        exact h2⟩)]
    rw [if_pos hp]
    rfl
  · simp [InterventionApplier.apply, hc, hd, apply_shift_action, hparse]

/-- Witness for C6 amended at concrete inputs: the swap descriptor
`("Swap", "1,2")` on the scenario state. -/
theorem applier_stub_spec_witness :
    (("Swap" : String) = "Swap" ∧ strContains ("1,2") (",") = true ∧
      shiftTokens.any (fun d => strContains ("1,2") d) = false) ∧
    InterventionApplier.apply (1/4) smScenario ("Swap") ("1,2") =
      ((false, 0), smScenario) :=
  ⟨⟨rfl, by with_unfolding_all decide, by with_unfolding_all decide⟩,
   (applier_stub_spec (1/4) smScenario ("Swap") ("1,2")).1 rfl
     (by with_unfolding_all decide) (by with_unfolding_all decide)⟩

/-- C9: the declared relationship set of a state manager is never modified
by any state-producing operation — construction stores the declared set,
`apply_shift` and the applier preserve it, and `reset_to_initial` restores
the construction-time positions and clears the intervened set while
leaving the relationship set untouched; the current relationships are
always a subset of the declared set.  (The remaining operations —
`get_relationships`, `check_alignment`, `get_position`,
`get_alignment_score`, `get_state_snapshot` — return values and produce no
state at all in the functional embedding, matching their read-only
behavior.) -/
theorem relationships_never_reset (ist : InitState) (q shift_reward m : ℚ)
    (s : StateManager) (obj direction action : String) :
    ((StateManager.init ist q).relationships = ist.relationships) ∧
    (((s.apply_shift obj direction m).2).relationships = s.relationships) ∧
    (((InterventionApplier.apply shift_reward s obj action).2).relationships =
      s.relationships) ∧
    ((s.reset_to_initial).relationships = s.relationships) ∧
    ((s.reset_to_initial).objects = s.initial_objects) ∧
    ((s.reset_to_initial).intervened_objects = ∅) ∧
    (s.get_relationships ⊆ s.relationships) := by
  have hshift : ∀ o d mm, ((s.apply_shift o d mm).2).relationships = s.relationships := by
    intro o d mm
    simp only [StateManager.apply_shift]
    split
    · rfl
    · split <;> rfl
  refine ⟨rfl, hshift obj direction m, ?_, rfl, rfl, rfl, Finset.filter_subset _ _⟩
  simp only [InterventionApplier.apply]
  split
  · simp only [apply_shift_action]
    split
    · rfl
    · split <;> exact hshift _ _ _
  · split
    · rfl
    · split <;> rfl

/-- `get_legal_actions` reads the configuration only through the
intervention space (shared helper). -/
theorem get_legal_actions_congr (c1 c2 : MCTSConfig)
    (h : c1.intervention_space = c2.intervention_space) :
    get_legal_actions c1 = get_legal_actions c2 := by
  funext interventions violations
  simp only [get_legal_actions, h]

/-- The rollout suffix loop reads the configuration only through the
intervention space and the reward shaper (shared helper). -/
theorem rolloutSuffix_congr (c1 c2 : MCTSConfig)
    (hsp : c1.intervention_space = c2.intervention_space)
    (hrs : c1.reward_shaper = c2.reward_shaper) (oracle : ℕ → ℕ)
    (violations : Finset Intv) :
    ∀ (b : ℕ) (s : StateManager) (prev : Finset String) (acc : ℚ)
      (history : List Intv) (pos : ℕ),
      rolloutSuffix c1 oracle violations b s prev acc history pos =
        rolloutSuffix c2 oracle violations b s prev acc history pos := by
  intro b
  induction b with
  | zero => intro s prev acc history pos; simp only [rolloutSuffix, hrs]
  | succ n ih =>
    intro s prev acc history pos
    simp only [rolloutSuffix, get_legal_actions_congr c1 c2 hsp, hrs]
    split
    · rfl
    · exact ih _ _ _ _ _

/-- `rollout` reads the configuration only through the initial state, the
intervention space, the reward shaper, the rollout depth and the
termination threshold (shared helper). -/
theorem rollout_congr (c1 c2 : MCTSConfig)
    (hin : c1.initial_state = c2.initial_state)
    (hsp : c1.intervention_space = c2.intervention_space)
    (hrs : c1.reward_shaper = c2.reward_shaper)
    (hd : c1.max_rollout_depth = c2.max_rollout_depth)
    (ht : c1.termination_threshold = c2.termination_threshold)
    (oracle : ℕ → ℕ) (pos : ℕ) (iv : List Intv) (vl : Finset Intv) :
    rollout c1 oracle pos iv vl = rollout c2 oracle pos iv vl := by
  simp only [rollout, rolloutStateManager, hin, hrs, hd, ht,
    rolloutSuffix_congr c1 c2 hsp hrs]

/-- C10: every rollout builds its state manager with the alignment
threshold hard-coded to 0.005 and its applier with immediate shift reward
hard-coded to 0 — independent of the scenario-level threshold, the
reward-shaping settings and the goal — and consequently every applier call
during a rollout (in particular every successful shift) contributes an
immediate reward of exactly 0. -/
theorem rollout_hardcoded (cfg : MCTSConfig) :
    ((rolloutStateManager cfg).alignment_threshold = 5/1000) ∧
    (∀ cfg2 : MCTSConfig, cfg2.initial_state = cfg.initial_state →
      rolloutStateManager cfg2 = rolloutStateManager cfg) ∧
    (∀ q oracle pos iv vl,
      rollout { cfg with scenario_alignment_threshold := q } oracle pos iv vl =
        rollout cfg oracle pos iv vl) ∧
    (rolloutShiftReward = 0) ∧
    (∀ s obj action,
      ((InterventionApplier.apply rolloutShiftReward s obj action).1).2 = 0) := by
    refine ⟨rfl, fun cfg2 h => by simp only [rolloutStateManager, h],
      fun q oracle pos iv vl =>
        rollout_congr { cfg with scenario_alignment_threshold := q } cfg
          rfl rfl rfl rfl rfl oracle pos iv vl,
      rfl, ?_⟩
    intro s obj action
    simp only [InterventionApplier.apply]
    split
    · simp only [apply_shift_action]
      split
      · rfl
      · split <;> rfl
    · split
      · rfl
      · split <;> rfl

/-- Witness for C10 at concrete configurations: the solvable variant and
the scenario configuration share an initial state and get the same rollout
state manager. -/
theorem rollout_hardcoded_witness :
    cfgSolvable.initial_state = cfgScenario.initial_state ∧
    rolloutStateManager cfgSolvable = rolloutStateManager cfgScenario :=
  ⟨rfl, (rollout_hardcoded cfgScenario).2.1 cfgSolvable rfl⟩

/-- C2 counterexample: on a parent whose own visits counter is zero (with
one visited and one unvisited child), `_best_child` gives every child an
infinite exploration term — the `node.visits > 0` test of the `else`
branch fails for all of them — so it returns the first child, here the
visited one, not the first unvisited one. -/
theorem best_child_counterexample :
    nodeMixedZero.visits = 0 ∧
    nodeMixedZero.children.map MTree.visits = [1, 0] ∧
    (best_child cfgScenario nodeMixedZero).map MTree.visits = some 1 :=
  ⟨rfl, rfl, by with_unfolding_all decide⟩

/-- Once the running best score is infinite, no later child replaces it
(`score > inf` is false for finite and infinite scores alike) — shared
helper for the `_best_child` loop. -/
theorem bestChildGo_inf_absorb (cfg : MCTSConfig) (pv : ℕ) :
    ∀ (l : List MTree) (i j : ℕ),
      bestChildGo cfg pv i (j, some ScoreVal.inf) l = (j, some ScoreVal.inf) := by
  intro l
  induction l with
  | nil => intro i j; rfl
  | cons c cs ih =>
    intro i j
    have h : scoreGT (childScore cfg pv c) (some ScoreVal.inf) = false := by
      cases childScore cfg pv c <;> rfl
    simp only [bestChildGo, h, Bool.false_eq_true, if_false]
    exact ih _ _

/-- The `_best_child` loop lands on the first unvisited child whenever the
parent has been visited and the running best is not yet infinite — shared
helper. -/
theorem bestChildGo_first_unvisited (cfg : MCTSConfig) (pv : ℕ) (hpv : 0 < pv) :
    ∀ (l : List MTree) (i k : ℕ) (acc : ℕ × Option ScoreVal),
      (acc.2 = none ∨ ∃ q, acc.2 = some (ScoreVal.fin q)) →
      l.findIdx? (fun c => c.visits == 0) i = some k →
      (bestChildGo cfg pv i acc l).1 = k := by
  intro l
  induction l with
  | nil => intro i k acc hacc hfind; simp at hfind
  | cons c cs ih =>
    intro i k acc hacc hfind
    rw [List.findIdx?_cons] at hfind
    by_cases hc : c.visits = 0
    · rw [if_pos (by simp [hc])] at hfind
      have hk : k = i := by
        cases hfind
        rfl
      subst hk
      have hs : childScore cfg pv c = ScoreVal.inf := by
        simp [childScore, hc]
      have hgt : scoreGT ScoreVal.inf acc.2 = true := by
        rcases hacc with h | ⟨q, h⟩ <;> rw [h] <;> rfl
      simp only [bestChildGo, hs, hgt, eq_self_iff_true, if_true]
      rw [bestChildGo_inf_absorb]
    · rw [if_neg (by simp [hc])] at hfind
      simp only [bestChildGo]
      apply ih (i + 1) k _ _ hfind
      split
      · right
        refine ⟨(if 0 < c.visits then c.total_reward / (c.visits : ℚ) else 0) +
          cfg.exploration_constant * cfg.explore_fn pv c.visits, ?_⟩
        show some (childScore cfg pv c) = _
        simp only [childScore]
        rw [if_pos ⟨Nat.pos_of_ne_zero hc, hpv⟩]
      · exact hacc

/-- A found index points at an element satisfying the predicate — shared
helper. -/
theorem findIdx?_get (p : MTree → Bool) :
    ∀ (l : List MTree) (k : ℕ), l.findIdx? p = some k →
      ∃ c, l.get? k = some c ∧ p c = true := by
  intro l
  induction l with
  | nil => intro k h; simp at h
  | cons a as ih =>
    intro k h
    rw [List.findIdx?_cons] at h
    by_cases hp : p a
    · rw [if_pos hp] at h
      cases h
      exact ⟨a, rfl, hp⟩
    · rw [if_neg hp, List.findIdx?_succ] at h
      rcases Option.map_eq_some'.mp h with ⟨k1, hk1, hke⟩
      rcases ih k1 hk1 with ⟨c, hc, hpc⟩
      refine ⟨c, ?_, hpc⟩
      rw [← hke]
      simpa using hc

/-- C2 amended: provided the parent's visits counter is positive — which
backpropagation guarantees whenever any child has been visited —
`_best_child` on a node with at least one unvisited child returns the
first unvisited child in child order, regardless of every child's average
reward (when the parent's counter is zero, all children score infinite and
the first child is returned instead, as the counterexample shows). -/
theorem best_child_unvisited_first (cfg : MCTSConfig) (t : MTree) (k : ℕ)
    (hv : 0 < t.visits)
    (hk : t.children.findIdx? (fun c => c.visits == 0) = some k) :
    bestChildIdx cfg t = k ∧
    best_child cfg t = t.children.get? k ∧
    ∃ c, best_child cfg t = some c ∧ c.visits = 0 := by
  have h1 : bestChildIdx cfg t = k :=
    bestChildGo_first_unvisited cfg t.visits hv t.children 0 k (0, none)
      (Or.inl rfl) hk
  refine ⟨h1, by rw [best_child, h1], ?_⟩
  rcases findIdx?_get _ t.children k hk with ⟨c, hc, hpc⟩
  exact ⟨c, by rw [best_child, h1]; exact hc, by simpa using hpc⟩

/-- Witness for C2 amended at a concrete input: a parent with one visit,
a visited first child and an unvisited second child. -/
theorem best_child_unvisited_first_witness :
    (0 < nodeMixedOne.visits ∧
      nodeMixedOne.children.findIdx? (fun c => c.visits == 0) = some 1) ∧
    bestChildIdx cfgScenario nodeMixedOne = 1 :=
  ⟨⟨by decide, by decide⟩,
   (best_child_unvisited_first cfgScenario nodeMixedOne 1 (by decide) (by decide)).1⟩

/-- C8 counterexample: on the section-8 scenario the first iteration's
rollout does not meet the termination threshold (the rollout state manager
uses the hard-coded 0.005 threshold, under which `On(1,0)` fails at offset
0.02, and the expanded child already carries one intervention), and a
one-iteration search returns with the exhausted budget count 1, not with
success at iteration 0. -/
theorem scenario_counterexample :
    stepSuccess cfgScenario oracleZero 3 (initialSearchState cfgScenario) = false ∧
    (searchResolution cfgScenario oracleZero 1).2 = 1 := by
  constructor <;> with_unfolding_all decide

/-- C8 amended: under the hard-coded 0.005 rollout threshold the first
rollout carries the one popped intervention (`("1","left,0.01")`) and
attains reward `shift_bonus - 2 * depth_penalty = 0.15`, far below the
0.9 threshold, so the search cannot stop at iteration 0; with a budget of
one iteration it returns that child's sequence through the best-average
path together with the full iteration count. -/
theorem scenario_actual_behavior :
    stepReward cfgScenario oracleZero 3 (initialSearchState cfgScenario) =
      some (3/20) ∧
    stepInterventions cfgScenario oracleZero 3 (initialSearchState cfgScenario) =
      some [("1", "left,0.01")] ∧
    (3/20 : ℚ) < cfgScenario.termination_threshold ∧
    searchResolution cfgScenario oracleZero 1 = ([("1", "left,0.01")], 1) := by
  refine ⟨?_, ?_, ?_, ?_⟩ <;> with_unfolding_all decide

/-- A skipped iteration changes neither the history, the flag nor the
oracle position (shared helper). -/
theorem mctsStep_skip_inv (cfg : MCTSConfig) (oracle : ℕ → ℕ) (fuel : ℕ)
    (st st' : SearchState) (h : mctsStep cfg oracle fuel st = .skip st') :
    st'.found = st.found ∧ st'.hist = st.hist ∧ st'.pos = st.pos ∧
    st'.tree = (expandAt cfg (selectGo cfg fuel st.tree).1 (selectGo cfg fuel st.tree).2).1 := by
  simp only [mctsStep] at h
  split at h
  · cases h
    exact ⟨rfl, rfl, rfl, rfl⟩
  · split at h
    · cases h
    · split at h <;> cases h

/-- An aborted iteration happens only with the `solution_found` flag set
(shared helper). -/
theorem mctsStep_abort_found (cfg : MCTSConfig) (oracle : ℕ → ℕ) (fuel : ℕ)
    (st st' : SearchState) (ans : List Intv)
    (h : mctsStep cfg oracle fuel st = .abort ans st') : st.found = true := by
  simp only [mctsStep] at h
  split at h
  · cases h
  · split at h
    · next hf => exact hf
    · split at h <;> cases h

/-- The flag after a rolled-out iteration (shared helper). -/
theorem mctsStep_rolled_inv (cfg : MCTSConfig) (oracle : ℕ → ℕ) (fuel : ℕ)
    (st st' : SearchState) (iv : List Intv) (p : List ℕ) (r : ℚ)
    (h : mctsStep cfg oracle fuel st = .rolled iv p r st') :
    st'.found = (if cfg.termination_threshold ≤ r then true else st.found) := by
  simp only [mctsStep] at h
  split at h
  · cases h
  · split at h
    · cases h
    · split at h
      · next hq =>
        cases h
        simp [hq]
      · next hq =>
        cases h
        simp [hq]

/-- `stepState` agreement with the step outcome (shared helper). -/
theorem stepState_eq (cfg : MCTSConfig) (oracle : ℕ → ℕ) (fuel : ℕ)
    (st : SearchState) :
    (∀ st', mctsStep cfg oracle fuel st = .skip st' → stepState cfg oracle fuel st = st') ∧
    (∀ ans st', mctsStep cfg oracle fuel st = .abort ans st' →
      stepState cfg oracle fuel st = st') ∧
    (∀ iv p r st', mctsStep cfg oracle fuel st = .rolled iv p r st' →
      stepState cfg oracle fuel st = st') := by
  refine ⟨fun st' h => ?_, fun ans st' h => ?_, fun iv p r st' h => ?_⟩ <;>
    (unfold stepState; rw [h])

/-- The first-success index is below the remaining budget (shared helper). -/
theorem firstSuccessFrom_lt (cfg : MCTSConfig) (oracle : ℕ → ℕ) (fuel : ℕ) :
    ∀ (rem : ℕ) (st : SearchState) (i : ℕ) (a : List Intv) (r : ℚ),
      firstSuccessFrom cfg oracle fuel rem st = some (i, a, r) → i < rem := by
  intro rem
  induction rem with
  | zero => intro st i a r h; simp [firstSuccessFrom] at h
  | succ n ih =>
    intro st i a r h
    simp only [firstSuccessFrom] at h
    cases hm : mctsStep cfg oracle fuel st with
    | skip st' =>
      simp only [hm] at h
      rcases Option.map_eq_some'.mp h with ⟨⟨i1, a1, r1⟩, hx, he⟩
      simp only [Prod.mk.injEq] at he
      have := ih st' i1 a1 r1 hx
      omega
    | abort ans st' =>
      simp only [hm] at h
      simp at h
    | rolled iv p r1 st' =>
      simp only [hm] at h
      by_cases hq : cfg.termination_threshold ≤ r1
      · rw [if_pos hq] at h
        simp only [Option.some.injEq, Prod.mk.injEq] at h
        omega
      · rw [if_neg hq] at h
        rcases Option.map_eq_some'.mp h with ⟨⟨i1, a1, r1'⟩, hx, he⟩
        simp only [Prod.mk.injEq] at he
        have := ih st' i1 a1 r1' hx
        omega

/-- On a first-success run the loop returns that rollout's interventions
together with the absolute iteration index (shared helper). -/
theorem searchGo_of_some (cfg : MCTSConfig) (oracle : ℕ → ℕ) (fuel total : ℕ) :
    ∀ (rem : ℕ) (st : SearchState) (i : ℕ) (a : List Intv) (r : ℚ),
      rem ≤ total →
      firstSuccessFrom cfg oracle fuel rem st = some (i, a, r) →
      searchGo cfg oracle fuel total rem st = (a, total - rem + i) := by
  intro rem
  induction rem with
  | zero => intro st i a r _ h; simp [firstSuccessFrom] at h
  | succ n ih =>
    intro st i a r hle h
    simp only [firstSuccessFrom] at h
    simp only [searchGo]
    cases hm : mctsStep cfg oracle fuel st with
    | skip st' =>
      simp only [hm] at h ⊢
      rcases Option.map_eq_some'.mp h with ⟨⟨i1, a1, r1⟩, hx, he⟩
      simp only [Prod.mk.injEq] at he
      obtain ⟨hi, ha, hr⟩ := he
      rw [ih st' i1 a1 r1 (by omega) hx]
      rw [← ha]
      exact Prod.ext rfl (by omega)
    | abort ans st' =>
      simp only [hm] at h
      simp at h
    | rolled iv p r1 st' =>
      simp only [hm] at h ⊢
      by_cases hq : cfg.termination_threshold ≤ r1
      · rw [if_pos hq] at h
        simp only [Option.some.injEq, Prod.mk.injEq] at h
        obtain ⟨hi, ha, hr⟩ := h
        rw [if_pos hq, ← ha]
        exact Prod.ext rfl (by omega)
      · rw [if_neg hq] at h
        rcases Option.map_eq_some'.mp h with ⟨⟨i1, a1, r1'⟩, hx, he⟩
        simp only [Prod.mk.injEq] at he
        obtain ⟨hi, ha, hr⟩ := he
        rw [if_neg hq, ih st' i1 a1 r1' (by omega) hx, ← ha]
        exact Prod.ext rfl (by omega)

/-- A first success at relative index `i` is a rollout meeting the
threshold at trace position `i`, with no earlier success (shared helper). -/
theorem firstSuccessFrom_trace (cfg : MCTSConfig) (oracle : ℕ → ℕ) (fuel : ℕ) :
    ∀ (rem : ℕ) (st : SearchState) (i : ℕ) (a : List Intv) (r : ℚ),
      firstSuccessFrom cfg oracle fuel rem st = some (i, a, r) →
      (match mctsStep cfg oracle fuel ((stepState cfg oracle fuel)^[i] st) with
       | StepOut.rolled iv _ rr _ => iv = a ∧ rr = r
       | _ => False) ∧
      cfg.termination_threshold ≤ r ∧
      (∀ j, j < i →
        stepSuccess cfg oracle fuel ((stepState cfg oracle fuel)^[j] st) = false) := by
  intro rem
  induction rem with
  | zero => intro st i a r h; simp [firstSuccessFrom] at h
  | succ n ih =>
    intro st i a r h
    simp only [firstSuccessFrom] at h
    cases hm : mctsStep cfg oracle fuel st with
    | skip st' =>
      simp only [hm] at h
      rcases Option.map_eq_some'.mp h with ⟨⟨i1, a1, r1⟩, hx, he⟩
      simp only [Prod.mk.injEq] at he
      obtain ⟨hi, ha, hr⟩ := he
      subst ha hr
      have hst : stepState cfg oracle fuel st = st' :=
        (stepState_eq cfg oracle fuel st).1 st' hm
      obtain ⟨h1, h2, h3⟩ := ih st' i1 a1 r1 hx
      refine ⟨?_, h2, ?_⟩
      · rw [← hi, Function.iterate_succ_apply, hst]
        exact h1
      · intro j hj
        cases j with
        | zero =>
          simp only [Function.iterate_zero_apply, stepSuccess, hm]
        | succ j1 =>
          rw [Function.iterate_succ_apply, hst]
          exact h3 j1 (by omega)
    | abort ans st' =>
      simp only [hm] at h
      simp at h
    | rolled iv p r1 st' =>
      simp only [hm] at h
      by_cases hq : cfg.termination_threshold ≤ r1
      · rw [if_pos hq] at h
        simp only [Option.some.injEq, Prod.mk.injEq] at h
        obtain ⟨hi, ha, hr⟩ := h
        subst ha hr
        refine ⟨?_, hq, fun j hj => absurd hj (by omega)⟩
        rw [← hi]
        simp only [Function.iterate_zero_apply, hm]
        exact ⟨trivial, trivial⟩
      · rw [if_neg hq] at h
        rcases Option.map_eq_some'.mp h with ⟨⟨i1, a1, r1'⟩, hx, he⟩
        simp only [Prod.mk.injEq] at he
        obtain ⟨hi, ha, hr⟩ := he
        subst ha hr
        have hst : stepState cfg oracle fuel st = st' :=
          (stepState_eq cfg oracle fuel st).2.2 iv p r1 st' hm
        obtain ⟨h1, h2, h3⟩ := ih st' i1 a1 r1' hx
        refine ⟨?_, h2, ?_⟩
        · rw [← hi, Function.iterate_succ_apply, hst]
          exact h1
        · intro j hj
          cases j with
          | zero =>
            simp only [Function.iterate_zero_apply, stepSuccess, hm]
            simp [hq]
          | succ j1 =>
            rw [Function.iterate_succ_apply, hst]
            exact h3 j1 (by omega)

/-- Without an early success (and with the flag down) the loop runs its
whole budget and ends in the exhausted-budget answer over the final state
(shared helper). -/
theorem searchGo_of_none (cfg : MCTSConfig) (oracle : ℕ → ℕ) (fuel total : ℕ) :
    ∀ (rem : ℕ) (st : SearchState),
      firstSuccessFrom cfg oracle fuel rem st = none → st.found = false →
      searchGo cfg oracle fuel total rem st =
        finalAnswer ((stepState cfg oracle fuel)^[rem] st) total := by
  intro rem
  induction rem with
  | zero => intro st _ _; rfl
  | succ n ih =>
    intro st h hf
    simp only [firstSuccessFrom] at h
    simp only [searchGo]
    cases hm : mctsStep cfg oracle fuel st with
    | skip st' =>
      simp only [hm] at h ⊢
      have hst : stepState cfg oracle fuel st = st' :=
        (stepState_eq cfg oracle fuel st).1 st' hm
      have hf' : st'.found = false :=
        ((mctsStep_skip_inv cfg oracle fuel st st' hm).1).trans hf
      rw [Function.iterate_succ_apply, hst]
      exact ih st' (Option.map_eq_none'.mp h) hf'
    | abort ans st' =>
      have := mctsStep_abort_found cfg oracle fuel st st' ans hm
      rw [hf] at this
      cases this
    | rolled iv p r1 st' =>
      simp only [hm] at h ⊢
      by_cases hq : cfg.termination_threshold ≤ r1
      · rw [if_pos hq] at h
        cases h
      · rw [if_neg hq] at h
        have hst : stepState cfg oracle fuel st = st' :=
          (stepState_eq cfg oracle fuel st).2.2 iv p r1 st' hm
        have hf' : st'.found = false := by
          rw [mctsStep_rolled_inv cfg oracle fuel st st' iv p r1 hm, if_neg hq]
          exact hf
        rw [if_neg hq, Function.iterate_succ_apply, hst]
        exact ih st' (Option.map_eq_none'.mp h) hf'

/-- The running maximum of `bestAvgChild` comes from the candidate list and
dominates every average (shared helper). -/
theorem bestAvgChild_spec :
    ∀ (l : List MTree) (best : MTree),
      (bestAvgChild best l = best ∨ bestAvgChild best l ∈ l) ∧
      nodeAvg best ≤ nodeAvg (bestAvgChild best l) ∧
      ∀ d ∈ l, nodeAvg d ≤ nodeAvg (bestAvgChild best l) := by
  intro l
  induction l with
  | nil => intro best; exact ⟨Or.inl rfl, le_refl _, fun d hd => absurd hd (by simp)⟩
  | cons c cs ih =>
    intro best
    obtain ⟨hmem, hle, hall⟩ := ih (if nodeAvg best < nodeAvg c then c else best)
    have hbest : nodeAvg best ≤ nodeAvg (if nodeAvg best < nodeAvg c then c else best) := by
      split
      · next hlt => exact le_of_lt hlt
      · exact le_refl _
    have hc : nodeAvg c ≤ nodeAvg (if nodeAvg best < nodeAvg c then c else best) := by
      split
      · exact le_refl _
      · next hlt => exact le_of_not_lt hlt
    refine ⟨?_, le_trans hbest hle, ?_⟩
    · rcases hmem with h | h
      · rw [bestAvgChild, h]
        split
        · exact Or.inr (by simp)
        · exact Or.inl rfl
      · exact Or.inr (List.mem_cons_of_mem _ h)
    · intro d hd
      rcases List.mem_cons.mp hd with rfl | hd2
      · exact le_trans hc hle
      · exact hall d hd2

/-- C1: `search_resolution` stops early with success at the first iteration
whose rollout reward meets the termination threshold, returning that
rolled-out node's intervention sequence together with the iteration index
(all earlier iterations being non-successes); with the budget exhausted
without such a rollout it returns the full iteration count together with
the interventions of a root child attaining the maximal average reward
`total_reward/visits` (zero-visit children scoring 0), and the empty
sequence when the final root has no children. -/
theorem search_resolution_contract (cfg : MCTSConfig) (oracle : ℕ → ℕ) (total : ℕ) :
    (∀ i a r,
      firstSuccessFrom cfg oracle (total + 2) total (initialSearchState cfg) =
        some (i, a, r) →
      searchResolution cfg oracle total = (a, i) ∧
      cfg.termination_threshold ≤ r ∧ i < total ∧
      (match mctsStep cfg oracle (total + 2) (iterState cfg oracle (total + 2) i) with
       | StepOut.rolled iv _ rr _ => iv = a ∧ rr = r
       | _ => False) ∧
      (∀ j, j < i →
        stepSuccess cfg oracle (total + 2) (iterState cfg oracle (total + 2) j) =
          false)) ∧
    (firstSuccessFrom cfg oracle (total + 2) total (initialSearchState cfg) = none →
      (searchResolution cfg oracle total).2 = total ∧
      (match (iterState cfg oracle (total + 2) total).tree.children with
       | [] => (searchResolution cfg oracle total).1 = []
       | c :: cs =>
         (searchResolution cfg oracle total).1 = (bestAvgChild c cs).interventions ∧
         (bestAvgChild c cs = c ∨ bestAvgChild c cs ∈ cs) ∧
         nodeAvg c ≤ nodeAvg (bestAvgChild c cs) ∧
         ∀ d ∈ cs, nodeAvg d ≤ nodeAvg (bestAvgChild c cs))) := by
  constructor
  · intro i a r h
    have h2 := searchGo_of_some cfg oracle (total + 2) total total
      (initialSearchState cfg) i a r (le_refl total) h
    have h3 := firstSuccessFrom_trace cfg oracle (total + 2) total
      (initialSearchState cfg) i a r h
    have h4 := firstSuccessFrom_lt cfg oracle (total + 2) total
      (initialSearchState cfg) i a r h
    refine ⟨?_, h3.2.1, h4, h3.1, h3.2.2⟩
    unfold searchResolution
    rw [h2]
    exact Prod.ext rfl (by omega)
  · intro h
    have h2 := searchGo_of_none cfg oracle (total + 2) total total
      (initialSearchState cfg) h rfl
    have hsr : searchResolution cfg oracle total =
        finalAnswer (iterState cfg oracle (total + 2) total) total := h2
    rw [hsr]
    cases hch : (iterState cfg oracle (total + 2) total).tree.children with
    | nil => simp [finalAnswer, hch]
    | cons c cs =>
      obtain ⟨hmem, hle, hall⟩ := bestAvgChild_spec cs c
      simp only [finalAnswer, hch]
      exact ⟨trivial, ⟨trivial, hmem, hle, hall⟩⟩

/-- Witness for C1 on a concrete solvable configuration: the first
iteration's rollout reaches reward 1.45 and the search returns at
iteration 0. -/
theorem search_resolution_contract_witness :
    searchResolution cfgSolvable oracleZero 2 = ([("1", "left,0.02")], 0) :=
  ((search_resolution_contract cfgSolvable oracleZero 2).1 0
    [("1", "left,0.02")] (29/20) (by with_unfolding_all decide)).1

/-- Field bookkeeping for the tree updates (shared helpers). -/
theorem withChildren_fields (t : MTree) (c : List MTree) :
    (t.withChildren c).visits = t.visits ∧
    (t.withChildren c).interventions = t.interventions ∧
    (t.withChildren c).children = c := by
  cases t
  exact ⟨rfl, rfl, rfl⟩

/-- Field bookkeeping for `withUntried` (shared helper). -/
theorem withUntried_fields (t : MTree) (u : Option (List Intv)) :
    (t.withUntried u).visits = t.visits ∧
    (t.withUntried u).interventions = t.interventions ∧
    (t.withUntried u).children = t.children := by
  cases t
  exact ⟨rfl, rfl, rfl⟩

/-- Field bookkeeping for `initUntried` (shared helper). -/
theorem initUntried_fields (cfg : MCTSConfig) (t : MTree) :
    (initUntried cfg t).visits = t.visits ∧
    (initUntried cfg t).interventions = t.interventions ∧
    (initUntried cfg t).children = t.children := by
  unfold initUntried
  split
  · exact withUntried_fields t _
  · exact ⟨rfl, rfl, rfl⟩

/-- Replacing a child by one with the same visits count keeps the
visits image of the children list (shared helper). -/
theorem map_visits_set (l : List MTree) :
    ∀ (j : ℕ) (x : MTree), x.visits = (l.getD j defaultMTree).visits →
      (l.set j x).map MTree.visits = l.map MTree.visits := by
  induction l with
  | nil => intro j x _; rfl
  | cons a as ih =>
    intro j x h
    cases j with
    | zero =>
      have h2 : x.visits = a.visits := h
      show (x :: as).map MTree.visits = (a :: as).map MTree.visits
      simp only [List.map_cons, h2]
    | succ j1 =>
      have h2 : x.visits = (as.getD j1 defaultMTree).visits := h
      show (a :: as.set j1 x).map MTree.visits = (a :: as).map MTree.visits
      simp only [List.map_cons, ih j1 x h2]

/-- Replacing a child by one with one more visit adds exactly one to the
total of the children's visits (shared helper). -/
theorem map_visits_set_sum (l : List MTree) :
    ∀ (j : ℕ) (x : MTree), j < l.length →
      x.visits = (l.getD j defaultMTree).visits + 1 →
      ((l.set j x).map MTree.visits).sum = ((l.map MTree.visits)).sum + 1 := by
  induction l with
  | nil => intro j x hj _; simp at hj
  | cons a as ih =>
    intro j x hj h
    cases j with
    | zero =>
      have h2 : x.visits = a.visits + 1 := h
      show ((x :: as).map MTree.visits).sum = _
      simp only [List.map_cons, List.sum_cons, h2]
      omega
    | succ j1 =>
      have hj2 : j1 < as.length := by simpa using hj
      have h2 : x.visits = (as.getD j1 defaultMTree).visits + 1 := h
      show ((a :: as.set j1 x).map MTree.visits).sum = _
      simp only [List.map_cons, List.sum_cons, ih j1 x hj2 h2]
      omega

/-- `select` only initializes untried-action lists: the root's visits,
interventions and the visits image of its children are unchanged (shared
helper). -/
theorem selectGo_preserves (cfg : MCTSConfig) :
    ∀ (fuel : ℕ) (t : MTree),
      ((selectGo cfg fuel t).1).visits = t.visits ∧
      ((selectGo cfg fuel t).1).interventions = t.interventions ∧
      ((selectGo cfg fuel t).1).children.map MTree.visits =
        t.children.map MTree.visits := by
  intro fuel
  induction fuel with
  | zero => intro t; exact ⟨rfl, rfl, rfl⟩
  | succ n ih =>
    intro t
    simp only [selectGo]
    split
    · exact ⟨rfl, rfl, rfl⟩
    · split
      · exact ⟨rfl, rfl, rfl⟩
      · obtain ⟨hw1, hw2, hw3⟩ := withChildren_fields t
          (t.children.set (bestChildIdx cfg t)
            (selectGo cfg n (initUntried cfg
              (t.children.getD (bestChildIdx cfg t) defaultMTree))).1)
        refine ⟨hw1, hw2, ?_⟩
        rw [hw3]
        apply map_visits_set
        rw [(ih _).1, (initUntried_fields cfg _).1]

/-- The index tracked by the `_best_child` loop stays below the start
index plus the number of remaining children, unless it is the initial one
(shared helper). -/
theorem bestChildGo_fst_bound (cfg : MCTSConfig) (pv : ℕ) :
    ∀ (l : List MTree) (i : ℕ) (acc : ℕ × Option ScoreVal),
      (bestChildGo cfg pv i acc l).1 = acc.1 ∨
        (i ≤ (bestChildGo cfg pv i acc l).1 ∧
          (bestChildGo cfg pv i acc l).1 < i + l.length) := by
  intro l
  induction l with
  | nil => intro i acc; exact Or.inl rfl
  | cons c cs ih =>
    intro i acc
    simp only [bestChildGo]
    rcases ih (i + 1) (if scoreGT (childScore cfg pv c) acc.2 then
        (i, some (childScore cfg pv c)) else acc) with h | ⟨h1, h2⟩
    · rw [h]
      split
      · right
        constructor
        · exact le_refl i
        · simp only [List.length_cons]
          omega
      · exact Or.inl rfl
    · right
      refine ⟨by omega, ?_⟩
      simp only [List.length_cons]
      omega

/-- `_best_child` returns a valid child index when children exist (shared
helper). -/
theorem bestChildIdx_lt (cfg : MCTSConfig) (t : MTree)
    (h : t.children ≠ []) : bestChildIdx cfg t < t.children.length := by
  have hpos : 0 < t.children.length := List.length_pos.mpr h
  unfold bestChildIdx
  rcases bestChildGo_fst_bound cfg t.visits t.children 0 (0, none) with h2 | ⟨_, h2⟩
  · rw [h2]
    exact hpos
  · simpa using h2

/-- The path returned by `select` is empty or starts at a valid child
index; the children count is preserved (shared helper). -/
theorem selectGo_path (cfg : MCTSConfig) :
    ∀ (fuel : ℕ) (t : MTree),
      ((selectGo cfg fuel t).1).children.length = t.children.length ∧
      ((selectGo cfg fuel t).2 = [] ∨
        ∃ j q, (selectGo cfg fuel t).2 = j :: q ∧ j < t.children.length) := by
  intro fuel
  induction fuel with
  | zero => intro t; exact ⟨rfl, Or.inl rfl⟩
  | succ n ih =>
    intro t
    simp only [selectGo]
    split
    · exact ⟨rfl, Or.inl rfl⟩
    · split
      · exact ⟨rfl, Or.inl rfl⟩
      · next hne =>
        have hlt : bestChildIdx cfg t < t.children.length := by
          apply bestChildIdx_lt
          intro hcontra
          rw [hcontra] at hne
          exact hne rfl
        obtain ⟨hw1, hw2, hw3⟩ := withChildren_fields t
          (t.children.set (bestChildIdx cfg t)
            (selectGo cfg n (initUntried cfg
              (t.children.getD (bestChildIdx cfg t) defaultMTree))).1)
        constructor
        · rw [hw3, List.length_set]
        · exact Or.inr ⟨bestChildIdx cfg t, _, rfl, hlt⟩

/-- A fresh node has zero visits (shared helper). -/
theorem newNode_visits (iv : List Intv) : (newNode iv).visits = 0 := rfl

/-- `expand` at a node preserves its visits and interventions and the
visits total of its children (a created child starts at zero visits); a
created child sits at the end of the children list (shared helper). -/
theorem expandNode_preserves (cfg : MCTSConfig) (t : MTree) :
    ((expandNode cfg t).1).visits = t.visits ∧
    ((expandNode cfg t).1).interventions = t.interventions ∧
    (((expandNode cfg t).1).children.map MTree.visits).sum =
      ((t.children.map MTree.visits)).sum ∧
    ((expandNode cfg t).2 = true →
      0 < ((expandNode cfg t).1).children.length) := by
  obtain ⟨hi1, hi2, hi3⟩ := initUntried_fields cfg t
  simp only [expandNode]
  split
  · next a rest heq =>
    obtain ⟨hw1, hw2, hw3⟩ := withChildren_fields
      ((initUntried cfg t).withUntried (some rest))
      ((initUntried cfg t).children ++ [newNode ((initUntried cfg t).interventions ++ [a])])
    obtain ⟨hu1, hu2, hu3⟩ := withUntried_fields (initUntried cfg t) (some rest)
    refine ⟨?_, ?_, ?_, ?_⟩
    · rw [hw1, hu1, hi1]
    · rw [hw2, hu2, hi2]
    · rw [hw3]
      simp only [List.map_append, List.sum_append, List.map_cons, List.map_nil,
        List.sum_cons, List.sum_nil, newNode_visits, hi3]
      omega
    · intro _
      rw [hw3]
      simp
  · exact ⟨hi1, hi2, by rw [hi3], fun h => absurd h (by simp)⟩

/-- `expand` applied at a path preserves the root's visits, its
interventions and the visits total of its direct children (shared
helper). -/
theorem expandAt_preserves (cfg : MCTSConfig) :
    ∀ (p : List ℕ) (t : MTree),
      ((expandAt cfg t p).1).visits = t.visits ∧
      ((expandAt cfg t p).1).interventions = t.interventions ∧
      (((expandAt cfg t p).1).children.map MTree.visits).sum =
        ((t.children.map MTree.visits)).sum := by
  intro p
  induction p with
  | nil =>
    intro t
    obtain ⟨h1, h2, h3, _⟩ := expandNode_preserves cfg t
    exact ⟨h1, h2, h3⟩
  | cons j q ih =>
    intro t
    simp only [expandAt]
    obtain ⟨hw1, hw2, hw3⟩ := withChildren_fields t
      (t.children.set j (expandAt cfg (t.children.getD j defaultMTree) q).1)
    refine ⟨hw1, hw2, ?_⟩
    rw [hw3]
    rw [map_visits_set]
    exact (ih _).1

/-- The child path returned by `expand` is empty or starts at a valid
child index of the updated tree (shared helper). -/
theorem expandAt_path (cfg : MCTSConfig) :
    ∀ (p : List ℕ) (t : MTree),
      (p = [] ∨ ∃ j q, p = j :: q ∧ j < t.children.length) →
      ((expandAt cfg t p).2 = [] ∨
        ∃ j q, (expandAt cfg t p).2 = j :: q ∧
          j < ((expandAt cfg t p).1).children.length) := by
  intro p
  cases p with
  | nil =>
    intro t _
    simp only [expandAt]
    split
    · next hcreated =>
      right
      refine ⟨((expandNode cfg t).1).children.length - 1, [], rfl, ?_⟩
      have := (expandNode_preserves cfg t).2.2.2 hcreated
      omega
    · exact Or.inl rfl
  | cons j1 q1 =>
    intro t hp
    rcases hp with h | ⟨j, q, hjq, hlt⟩
    · exact absurd h (by simp)
    · cases hjq
      simp only [expandAt]
      obtain ⟨_, _, hw3⟩ := withChildren_fields t
        (t.children.set j1 (expandAt cfg (t.children.getD j1 defaultMTree) q1).1)
      right
      refine ⟨j1, _, rfl, ?_⟩
      rw [hw3, List.length_set]
      exact hlt

/-- Backpropagation adds exactly one visit to the node it starts from,
whatever the remaining path (shared helper). -/
theorem backpropAt_visits (r : ℚ) :
    ∀ (p : List ℕ) (t : MTree),
      (backpropAt r t p).visits = t.visits + 1 ∧
      (backpropAt r t p).interventions = t.interventions := by
  intro p
  cases p with
  | nil =>
    intro t
    cases t
    exact ⟨rfl, rfl⟩
  | cons j q =>
    intro t
    cases t
    exact ⟨rfl, rfl⟩

/-- Backpropagation along a nonempty valid path adds exactly one to the
total of the root's children's visits (shared helper). -/
theorem backpropAt_sum (r : ℚ) (t : MTree) (j : ℕ) (p : List ℕ)
    (hj : j < t.children.length) :
    (((backpropAt r t (j :: p)).children.map MTree.visits)).sum =
      ((t.children.map MTree.visits)).sum + 1 := by
  have hchild : (backpropAt r t (j :: p)).children =
      t.children.set j (backpropAt r (t.children.getD j defaultMTree) p) := by
    cases t
    rfl
  rw [hchild]
  exact map_visits_set_sum t.children j _ hj
    (backpropAt_visits r p (t.children.getD j defaultMTree)).1

/-- Backpropagation along an empty path only touches the root (shared
helper). -/
theorem backpropAt_nil_children (r : ℚ) (t : MTree) :
    (backpropAt r t []).children = t.children := by
  cases t
  rfl

/-- Tree shape of an aborted iteration (shared helper). -/
theorem mctsStep_abort_tree (cfg : MCTSConfig) (oracle : ℕ → ℕ) (fuel : ℕ)
    (st st' : SearchState) (ans : List Intv)
    (h : mctsStep cfg oracle fuel st = .abort ans st') :
    st'.tree =
      (expandAt cfg (selectGo cfg fuel st.tree).1 (selectGo cfg fuel st.tree).2).1 := by
  simp only [mctsStep] at h
  split at h
  · cases h
  · split at h
    · cases h
      rfl
    · split at h <;> cases h

/-- Tree shape, path and interventions of a rolled-out iteration (shared
helper). -/
theorem mctsStep_rolled_tree (cfg : MCTSConfig) (oracle : ℕ → ℕ) (fuel : ℕ)
    (st st' : SearchState) (iv : List Intv) (p : List ℕ) (r : ℚ)
    (h : mctsStep cfg oracle fuel st = .rolled iv p r st') :
    st'.tree = backpropAt r
      (expandAt cfg (selectGo cfg fuel st.tree).1 (selectGo cfg fuel st.tree).2).1
      (expandAt cfg (selectGo cfg fuel st.tree).1 (selectGo cfg fuel st.tree).2).2 ∧
    p = (expandAt cfg (selectGo cfg fuel st.tree).1 (selectGo cfg fuel st.tree).2).2 ∧
    iv = (getAt
      (expandAt cfg (selectGo cfg fuel st.tree).1 (selectGo cfg fuel st.tree).2).1
      (expandAt cfg (selectGo cfg fuel st.tree).1
        (selectGo cfg fuel st.tree).2).2).interventions ∧
    iv ≠ [] := by
  simp only [mctsStep] at h
  split at h
  · cases h
  · next hne =>
    split at h
    · cases h
    · cases h
      exact ⟨rfl, rfl, rfl, hne⟩

/-- One iteration preserves the empty root interventions and increments
both the root's visits and the total of the direct children's visits by
one exactly when the iteration rolls out (shared helper). -/
theorem step_conservation (cfg : MCTSConfig) (oracle : ℕ → ℕ) (fuel : ℕ)
    (st : SearchState) (hroot : st.tree.interventions = []) :
    (stepState cfg oracle fuel st).tree.interventions = [] ∧
    (stepState cfg oracle fuel st).tree.visits =
      st.tree.visits + (if stepRolled cfg oracle fuel st then 1 else 0) ∧
    ((stepState cfg oracle fuel st).tree.children.map MTree.visits).sum =
      ((st.tree.children.map MTree.visits)).sum +
        (if stepRolled cfg oracle fuel st then 1 else 0) := by
  obtain ⟨hs1, hs2, hs3⟩ := selectGo_preserves cfg fuel st.tree
  obtain ⟨he1, he2, he3⟩ := expandAt_preserves cfg (selectGo cfg fuel st.tree).2
    (selectGo cfg fuel st.tree).1
  have hsum3 : (((expandAt cfg (selectGo cfg fuel st.tree).1
        (selectGo cfg fuel st.tree).2).1).children.map MTree.visits).sum =
      ((st.tree.children.map MTree.visits)).sum := by
    rw [he3]
    exact congrArg List.sum hs3
  have hroot2 : ((expandAt cfg (selectGo cfg fuel st.tree).1
      (selectGo cfg fuel st.tree).2).1).interventions = [] := by
    rw [he2, hs2, hroot]
  cases hm : mctsStep cfg oracle fuel st with
  | skip st' =>
    have hstep : stepState cfg oracle fuel st = st' :=
      (stepState_eq cfg oracle fuel st).1 st' hm
    have hroll : stepRolled cfg oracle fuel st = false := by
      unfold stepRolled
      rw [hm]
    obtain ⟨_, _, _, htree⟩ := mctsStep_skip_inv cfg oracle fuel st st' hm
    rw [hstep, hroll, htree]
    refine ⟨hroot2, ?_, ?_⟩
    · rw [he1, hs1]
      simp
    · rw [hsum3]
      simp
  | abort ans st' =>
    have hstep : stepState cfg oracle fuel st = st' :=
      (stepState_eq cfg oracle fuel st).2.1 ans st' hm
    have hroll : stepRolled cfg oracle fuel st = false := by
      unfold stepRolled
      rw [hm]
    have htree := mctsStep_abort_tree cfg oracle fuel st st' ans hm
    rw [hstep, hroll, htree]
    refine ⟨hroot2, ?_, ?_⟩
    · rw [he1, hs1]
      simp
    · rw [hsum3]
      simp
  | rolled iv p r st' =>
    have hstep : stepState cfg oracle fuel st = st' :=
      (stepState_eq cfg oracle fuel st).2.2 iv p r st' hm
    have hroll : stepRolled cfg oracle fuel st = true := by
      unfold stepRolled
      rw [hm]
    obtain ⟨htree, _, hiv, hne⟩ := mctsStep_rolled_tree cfg oracle fuel st st' iv p r hm
    have hpath : (expandAt cfg (selectGo cfg fuel st.tree).1
          (selectGo cfg fuel st.tree).2).2 = [] ∨
        ∃ j q, (expandAt cfg (selectGo cfg fuel st.tree).1
            (selectGo cfg fuel st.tree).2).2 = j :: q ∧
          j < ((expandAt cfg (selectGo cfg fuel st.tree).1
            (selectGo cfg fuel st.tree).2).1).children.length := by
      apply expandAt_path
      obtain ⟨hlen, hsel⟩ := selectGo_path cfg fuel st.tree
      rcases hsel with h | ⟨j, q, hjq, hlt⟩
      · exact Or.inl h
      · exact Or.inr ⟨j, q, hjq, by rw [hlen]; exact hlt⟩
    rcases hpath with hemp | ⟨j, q, hjq, hlt⟩
    · exfalso
      apply hne
      rw [hiv, hemp]
      exact hroot2
    · rw [hstep, hroll, htree, hjq]
      refine ⟨?_, ?_, ?_⟩
      · rw [(backpropAt_visits r (j :: q) _).2, hroot2]
      · rw [(backpropAt_visits r (j :: q) _).1, he1, hs1]
        simp
      · rw [backpropAt_sum r _ j q hlt, hsum3]
        simp

/-- The completed-iteration count unrolls one step at a time (shared
helper). -/
theorem completedIn_succ (cfg : MCTSConfig) (oracle : ℕ → ℕ) (fuel n : ℕ) :
    completedIn cfg oracle fuel (n + 1) =
      completedIn cfg oracle fuel n +
        (if stepRolled cfg oracle fuel (iterState cfg oracle fuel n) then 1 else 0) := by
  unfold completedIn
  rw [List.range_succ, List.filter_append, List.length_append]
  congr 1
  simp only [List.filter]
  split
  · next heq => simp [heq]
  · next heq => simp [heq]

/-- Trace-level conservation: after any number of iterations the root's
interventions stay empty, and both the root's visits and the children's
visits total equal the completed-iteration count (shared helper). -/
theorem trace_conservation (cfg : MCTSConfig) (oracle : ℕ → ℕ) (fuel : ℕ) :
    ∀ n : ℕ,
      (iterState cfg oracle fuel n).tree.interventions = [] ∧
      (iterState cfg oracle fuel n).tree.visits = completedIn cfg oracle fuel n ∧
      ((iterState cfg oracle fuel n).tree.children.map MTree.visits).sum =
        completedIn cfg oracle fuel n := by
  intro n
  induction n with
  | zero =>
    refine ⟨?_, rfl, rfl⟩
    show ((newNode []).withUntried _).interventions = []
    exact (withUntried_fields _ _).2.1
  | succ n ih =>
    obtain ⟨ih1, ih2, ih3⟩ := ih
    have hstep := step_conservation cfg oracle fuel (iterState cfg oracle fuel n) ih1
    have hiter : iterState cfg oracle fuel (n + 1) =
        stepState cfg oracle fuel (iterState cfg oracle fuel n) := by
      unfold iterState
      exact Function.iterate_succ_apply' _ _ _
    rw [hiter, completedIn_succ]
    exact ⟨hstep.1, by rw [hstep.2.1, ih2], by rw [hstep.2.2, ih3]⟩

/-- C7 counterexample: with the section-8 scenario and three iterations,
the sum of the root children's visits is 3 while only 2 distinct root
children have ever been selected into (the first child is re-selected at
iteration 2 once the root's untried actions are exhausted), so the sum
does not equal the number of distinct selected-into children. -/
theorem backprop_distinct_counterexample :
    ((iterState cfgScenario oracleZero 5 3).tree.children.map MTree.visits).sum = 3 ∧
    distinctSelected cfgScenario oracleZero 5 3 = 2 ∧
    (iterState cfgScenario oracleZero 5 3).tree.visits = 3 ∧
    ¬((iterState cfgScenario oracleZero 5 3).tree.children.map MTree.visits).sum =
      distinctSelected cfgScenario oracleZero 5 3 := by
  refine ⟨?_, ?_, ?_, ?_⟩ <;> with_unfolding_all decide

/-- C7 amended: after N iterations of the search loop the root's visits
counter equals the number of completed (non-skipped) iterations among
them, and the sum of the visits counters over the root's direct children
equals that same count — each completed iteration backpropagates through
exactly one root child — not the number of distinct children ever
selected into. -/
theorem backprop_conservation (cfg : MCTSConfig) (oracle : ℕ → ℕ) (fuel n : ℕ) :
    (iterState cfg oracle fuel n).tree.visits = completedIn cfg oracle fuel n ∧
    ((iterState cfg oracle fuel n).tree.children.map MTree.visits).sum =
      completedIn cfg oracle fuel n :=
  ⟨(trace_conservation cfg oracle fuel n).2.1,
   (trace_conservation cfg oracle fuel n).2.2⟩

end ActivePlan
